import Mathlib

/-!
Verification of the color-patches opinion-dynamics model
(`examples/color_patches/color_patches/model.py`).

The Python model is shallowly embedded: a cell is a record mirroring
`ColorCell`'s fields, the grid contents are the model's agent list in
registration (coordinate) order, and the two random sources of the code are
explicit streams: `G : Nat → ℚ` models the draws of the module-global
`random.random()` and `M : Nat → Nat` models the draws of the seeded model
generator `self.random`, each consumed through an index that is threaded
through the computation.  Fallible operations (`random.choice` on an empty
sequence raises `IndexError` in Python) return `Option`.
-/

/-- A cell of the lattice, mirroring `ColorCell`: position (`_row`, `_col`),
committed opinion (`_state`), pending opinion (`_next_state`, unset between
steps), and the cult-leader flag (`_is_cult_leader`). -/
structure ColorCell where
  row : Nat
  col : Nat
  state : Nat
  next_state : Option Nat
  is_cult_leader : Bool
deriving DecidableEq

/-- The fixed opinion list `ColorCell.OPINIONS`. -/
def OPINIONS : List Nat := [0, 1, 2, 3, 4, 5, 6, 7, 8, 9, 10, 11, 12, 13, 14, 15, 16]

/-- The value `OPINIONS[-1]` assigned when a cell is designated a cult leader. -/
def max_opinion : Nat := OPINIONS.getLastD 0

/-- The initial opinion `OPINIONS[self.random.randrange(0, 16)]` of a freshly
created cell, where `k` is the raw model-stream value reduced to the
`randrange(0, 16)` result `k % 16`. -/
def initial_opinion (k : Nat) : Nat := OPINIONS.getD (k % 16) 0

/-- Manhattan distance as the code computes it:
`abs(row1 - row2) + abs(col1 - col2)` over Python integers. -/
def manhattan (r1 c1 r2 c2 : Nat) : Nat :=
  ((r1 : Int) - r2).natAbs + ((c1 : Int) - c2).natAbs

/-- Chebyshev (Moore) distance between two grid positions. -/
def chebyshev (r1 c1 r2 c2 : Nat) : Nat :=
  max (((r1 : Int) - r2).natAbs) (((c1 : Int) - c2).natAbs)

/-- Forget a cell's pending opinion.  Two cell lists with the same image under
`eraseNext` agree on everything the determine phase can read (position,
committed opinion, leader flag). -/
def eraseNext (c : ColorCell) : ColorCell := { c with next_state := none }

/-- Offset positions produced by the grid collaborator, modelling mesa's
`Grid.get_neighborhood(pos, moore, include_center=False, radius)` on the
non-toroidal `SingleGrid`: offsets range over the square of side
`2*radius+1` around `(r, c)`, the center is excluded, von-Neumann queries
(`moore = false`) keep only offsets of Manhattan length at most `radius`,
and out-of-bounds coordinates are dropped. -/
def neighborhood_positions (w h r c : Nat) (moore : Bool) (radius : Nat) :
    List (Nat × Nat) :=
  ((List.range (2 * radius + 1)).flatMap fun i =>
    (List.range (2 * radius + 1)).map fun j => (i, j)).filterMap fun ij =>
      let pr : Int := (r : Int) + ij.1 - radius
      let pc : Int := (c : Int) + ij.2 - radius
      if (pr = (r : Int) ∧ pc = (c : Int)) ∨
         (moore = false ∧ (radius : Int) < (pr - r).natAbs + (pc - c).natAbs) ∨
         ¬(0 ≤ pr ∧ pr < (w : Int) ∧ 0 ≤ pc ∧ pc < (h : Int))
      then none else some (pr.toNat, pc.toNat)

/-- The agent occupying position `p`; `SingleGrid` holds exactly one agent per
cell, modelled as the first listed cell with matching coordinates. -/
def cell_at (env : List ColorCell) (p : Nat × Nat) : Option ColorCell :=
  env.find? fun cell => cell.row == p.1 && cell.col == p.2

/-- `grid.iter_neighbors(pos, moore, include_center=False, radius)`: the agents
at the neighborhood positions. -/
def iter_neighbors (w h : Nat) (env : List ColorCell) (r c : Nat)
    (moore : Bool) (radius : Nat) : List ColorCell :=
  (neighborhood_positions w h r c moore radius).filterMap (cell_at env)

/-- Distinct values of a list in first-occurrence order, as the keys of a
Python `Counter` built from the list (each head is kept and its later
duplicates are dropped from the deduplicated tail). -/
def dedupFirst : List Nat → List Nat
  | [] => []
  | x :: xs => x :: (dedupFirst xs).filter fun y => !(y == x)

/-- Stable insertion (descending by count) used to model the sort underlying
`Counter.most_common()`. -/
def insertDesc (p : Nat × Nat) : List (Nat × Nat) → List (Nat × Nat)
  | [] => [p]
  | q :: qs => if q.2 < p.2 then p :: q :: qs else q :: insertDesc p qs

/-- Stable sort, descending by count (ties keep first-insertion order, as
`Counter.most_common()` guarantees). -/
def sortByCountDesc (l : List (Nat × Nat)) : List (Nat × Nat) :=
  l.foldl (fun acc p => insertDesc p acc) []

/-- `Counter(xs).most_common()`: the (value, occurrences) pairs sorted by
occurrences descending, ties in first-encounter order. -/
def most_common (xs : List Nat) : List (Nat × Nat) :=
  sortByCountDesc ((dedupFirst xs).map fun v => (v, xs.count v))

/-- The entries of `polled_opinions` whose count equals the first entry's
count (`tied_opinions` in `determine_opinion`). -/
def tied_of (polled : List (Nat × Nat)) : List (Nat × Nat) :=
  match polled.head? with
  | none => []
  | some p0 => polled.filter fun q => q.2 == p0.2

/-- The entries of `polled_opinions` whose count equals the last entry's
count (`low_tied_opinions` in `determine_opinion`). -/
def low_tied_of (polled : List (Nat × Nat)) : List (Nat × Nat) :=
  match polled.getLast? with
  | none => []
  | some pl => polled.filter fun q => q.2 == pl.2

/-- The cult-leader scan loop of `determine_opinion`: the accumulator holds
`(cult_leader_opinion, dist)`, starting from `(None, 10000)`; for every
cult leader encountered, the opinion is overwritten and the distance is
lowered to the Manhattan distance when smaller. -/
def leader_scan (r c : Nat) : List ColorCell → Option Nat × Nat → Option Nat × Nat
  | [], acc => acc
  | n :: ns, acc =>
    leader_scan r c ns
      (if n.is_cult_leader then
        (some n.state, min (manhattan r c n.row n.col) acc.2)
      else acc)

/-- `self.random.choice(xs)`: pick the element at the next model-stream value
reduced modulo the length, advancing the model index; `none` models the
`IndexError` raised on an empty sequence. -/
def stream_choice {α : Type} (M : Nat → Nat) (mi : Nat) :
    List α → Option (α × Nat)
  | [] => none
  | x :: xs => some ((x :: xs).getD (M mi % (xs.length + 1)) x, mi + 1)

/-- The tail of the decision in `determine_opinion`: one global draw decides
between the 10% low-tie branch and the majority branch, then one model draw
chooses from the corresponding tie list; the chosen pair's first component
(`[0]`) is the opinion.  The probability `0.1` is written `mkRat 1 10`. -/
def det_tail (G : Nat → ℚ) (M : Nat → Nat) (tied low_tied : List (Nat × Nat))
    (gi mi : Nat) : Option (Nat × Nat × Nat) :=
  if G gi < mkRat 1 10 then
    match stream_choice M mi low_tied with
    | none => none
    | some (p, mi2) => some (p.1, gi + 1, mi2)
  else
    match stream_choice M mi tied with
    | none => none
    | some (p, mi2) => some (p.1, gi + 1, mi2)

/-- `ColorCell.determine_opinion`: compute the value this cell stores into
`_next_state`, returning it with the advanced global and model stream
indices.  The leader test `if cult_leader_opinion and random.random() < (0.9
- dist * 0.2)` short-circuits: no global draw is consumed when
`cult_leader_opinion` is falsy (`None` or the opinion `0`); when the test
fails with a truthy opinion, the `elif` consumes a second global draw.  The
threshold `0.9 - dist * 0.2` is written as the equal rational
`mkRat (9 - 2 * dist) 10` (see `threshold_eq`). -/
def determine_opinion (G : Nat → ℚ) (M : Nat → Nat) (w h : Nat)
    (env : List ColorCell) (cell : ColorCell) (gi mi : Nat) :
    Option (Nat × Nat × Nat) :=
  let nbr_states := (iter_neighbors w h env cell.row cell.col true 1).map ColorCell.state
  let cultists := iter_neighbors w h env cell.row cell.col false 4
  let polled := most_common nbr_states
  let tied := tied_of polled
  let low_tied := low_tied_of polled
  match leader_scan cell.row cell.col cultists (none, 10000) with
  | (some op, dist) =>
    if op ≠ 0 ∧ G gi < mkRat (9 - 2 * (dist : Int)) 10 then some (op, gi + 1, mi)
    else if op ≠ 0 then det_tail G M tied low_tied (gi + 1) mi
    else det_tail G M tied low_tied gi mi
  | (none, _) => det_tail G M tied low_tied gi mi

/-- Sequential determine pass exactly as `self.agents.do("determine_opinion")`
executes it: agents are visited in order, each one computing its value from
the grid contents as they stand at that moment (`done` are the already
visited agents, carrying their freshly written pending opinions) and writing
only its own `_next_state`. -/
def det_seq (G : Nat → ℚ) (M : Nat → Nat) (w h : Nat) :
    List ColorCell → List ColorCell → Nat → Nat → Option (List ColorCell × Nat × Nat)
  | done, [], gi, mi => some (done, gi, mi)
  | done, c :: rest, gi, mi =>
    match determine_opinion G M w h (done ++ c :: rest) c gi mi with
    | none => none
    | some (v, gi2, mi2) =>
      det_seq G M w h (done ++ [{ c with next_state := some v }]) rest gi2 mi2

/-- The determine phase of `ColorPatches.step`. -/
def determine_phase (G : Nat → ℚ) (M : Nat → Nat) (w h : Nat)
    (env : List ColorCell) (gi mi : Nat) : Option (List ColorCell × Nat × Nat) :=
  det_seq G M w h [] env gi mi

/-- Determine pass against a fixed snapshot `env` of the pre-step grid: every
agent's value is computed from `env`, never from a same-pass update.  This
is the spec's reading of the ordering guarantee; it is proved equal to the
sequential pass `det_seq`. -/
def det_map (G : Nat → ℚ) (M : Nat → Nat) (w h : Nat) (env : List ColorCell) :
    List ColorCell → Nat → Nat → Option (List ColorCell × Nat × Nat)
  | [], gi, mi => some ([], gi, mi)
  | c :: rest, gi, mi =>
    match determine_opinion G M w h env c gi mi with
    | none => none
    | some (v, gi2, mi2) =>
      match det_map G M w h env rest gi2 mi2 with
      | none => none
      | some (cs, gi3, mi3) => some ({ c with next_state := some v } :: cs, gi3, mi3)

/-- The snapshot determine phase (spec side of the ordering guarantee). -/
def determine_phase_snapshot (G : Nat → ℚ) (M : Nat → Nat) (w h : Nat)
    (env : List ColorCell) (gi mi : Nat) : Option (List ColorCell × Nat × Nat) :=
  det_map G M w h env env gi mi

/-- `ColorCell.assume_opinion`: a non-leader commits its pending opinion; a
cult leader is left untouched.  Python assigns `_next_state` directly; after
a completed determine phase every cell's pending opinion is set (proved
below), so keeping the old opinion when it is unset never matters on
reachable states. -/
def assume_opinion (c : ColorCell) : ColorCell :=
  if c.is_cult_leader then c else { c with state := c.next_state.getD c.state }

/-- The commit phase of `ColorPatches.step`: each agent's `assume_opinion`
reads and writes only that agent, so the sequential `self.agents.do` pass is
a pointwise map. -/
def assume_phase (env : List ColorCell) : List ColorCell :=
  env.map assume_opinion

/-- The model state: grid dimensions, the agents in registration order, and
the step counter `_steps`. -/
structure ColorPatches where
  width : Nat
  height : Nat
  cells : List ColorCell
  steps : Nat
deriving DecidableEq

/-- The coordinates of `grid.coord_iter()` in iteration order. -/
def coord_list (w h : Nat) : List (Nat × Nat) :=
  (List.range w).flatMap fun r => (List.range h).map fun c => (r, c)

/-- Designate the agent at position `p` a cult leader with opinion
`OPINIONS[-1]`; `SingleGrid` stores one agent per coordinate, so the first
listed match is the occupant. -/
def set_leader_at : List ColorCell → Nat × Nat → List ColorCell
  | [], _ => []
  | c :: rest, p =>
    if c.row = p.1 ∧ c.col = p.2 then
      { c with state := max_opinion, is_cult_leader := true } :: rest
    else c :: set_leader_at rest p

/-- `ColorPatches.manipulate_random_cell`: choose a random coordinate of the
grid, set the occupying agent's opinion to `OPINIONS[-1]` and mark it a
cult leader permanently. -/
def manipulate_random_cell (M : Nat → Nat) (g : ColorPatches) (mi : Nat) :
    Option (ColorPatches × Nat) :=
  match stream_choice M mi (coord_list g.width g.height) with
  | none => none
  | some (p, mi2) => some ({ g with cells := set_leader_at g.cells p }, mi2)

/-- `ColorPatches.step`: determine phase for every agent in registration
order, then the commit phase, then the step counter is incremented, then
every 100th step the perturbation fires. -/
def step (G : Nat → ℚ) (M : Nat → Nat) (g : ColorPatches) (gi mi : Nat) :
    Option (ColorPatches × Nat × Nat) :=
  match determine_phase G M g.width g.height g.cells gi mi with
  | none => none
  | some (cells1, gi1, mi1) =>
    let cells2 := assume_phase cells1
    if (g.steps + 1) % 100 = 0 then
      match manipulate_random_cell M { g with cells := cells2, steps := g.steps + 1 } mi1 with
      | none => none
      | some (g2, mi2) => some (g2, gi1, mi2)
    else some ({ g with cells := cells2, steps := g.steps + 1 }, gi1, mi1)

/-- Cell creation loop of `ColorPatches.__init__`: one cell per coordinate,
with initial opinion `OPINIONS[self.random.randrange(0, 16)]`, no pending
opinion and no leader flag; returns the cells and the advanced model
index. -/
def create_cells (M : Nat → Nat) : List (Nat × Nat) → Nat → List ColorCell × Nat
  | [], mi => ([], mi)
  | p :: ps, mi =>
    let rest := create_cells M ps (mi + 1)
    ({ row := p.1, col := p.2, state := initial_opinion (M mi),
       next_state := none, is_cult_leader := false } :: rest.1, rest.2)

/-- `ColorPatches.__init__`: create the cells, then run one step (the
constructor ends with `self.step()`), starting from `_steps = 0`. -/
def colorPatches_init (G : Nat → ℚ) (M : Nat → Nat) (w h : Nat) (gi mi : Nat) :
    Option (ColorPatches × Nat × Nat) :=
  step G M { width := w, height := h,
             cells := (create_cells M (coord_list w h) mi).1, steps := 0 }
    gi (create_cells M (coord_list w h) mi).2

/-- Grid contents well-formedness guaranteed by the `SingleGrid`
collaborator: every agent lies within bounds and positions are unique. -/
def WFGrid (w h : Nat) (env : List ColorCell) : Prop :=
  (∀ x ∈ env, x.row < w ∧ x.col < h) ∧
  (∀ x ∈ env, ∀ y ∈ env, x.row = y.row → x.col = y.col → x = y)

/-- The leader-opinion invariant: every cult leader holds the extreme opinion
`OPINIONS[-1]`. -/
def LeaderInv (env : List ColorCell) : Prop :=
  ∀ x ∈ env, x.is_cult_leader = true → x.state = max_opinion

instance (w h : Nat) (env : List ColorCell) : Decidable (WFGrid w h env) := by
  unfold WFGrid
  exact inferInstance

instance (env : List ColorCell) : Decidable (LeaderInv env) := by
  unfold LeaderInv
  exact inferInstance

/-! ### Neighborhood characterization -/

theorem mem_neighborhood_positions {w h r c : Nat} {m : Bool} {radius : Nat}
    {pr pc : Nat} :
    (pr, pc) ∈ neighborhood_positions w h r c m radius ↔
      pr < w ∧ pc < h ∧ ¬(pr = r ∧ pc = c) ∧
      ((r : Int) - pr).natAbs ≤ radius ∧ ((c : Int) - pc).natAbs ≤ radius ∧
      (m = false → manhattan r c pr pc ≤ radius) := by
  cases m with
  | true =>
    simp only [neighborhood_positions, List.mem_filterMap, List.mem_flatMap,
      List.mem_map, List.mem_range, Bool.true_eq_false, false_and, false_or,
      false_implies, and_true]
    constructor
    · rintro ⟨ij, ⟨i, hi, j, hj, rfl⟩, hsome⟩
      split at hsome
      · exact absurd hsome (by simp)
      · rename_i hcond
        push_neg at hcond
        obtain ⟨h1, h3⟩ := hcond
        rw [Option.some.injEq, Prod.mk.injEq] at hsome
        obtain ⟨hpr, hpc⟩ := hsome
        refine ⟨?_, ?_, ?_, ?_, ?_⟩ <;> omega
    · rintro ⟨hw, hh, hne, hdr, hdc⟩
      refine ⟨(pr + radius - r, pc + radius - c),
        ⟨pr + radius - r, by omega, pc + radius - c, by omega, rfl⟩, ?_⟩
      rw [if_neg (by push_neg; constructor <;> omega)]
      rw [Option.some.injEq, Prod.mk.injEq]
      constructor <;> omega
  | false =>
    simp only [neighborhood_positions, manhattan, List.mem_filterMap,
      List.mem_flatMap, List.mem_map, List.mem_range, forall_const]
    constructor
    · rintro ⟨ij, ⟨i, hi, j, hj, rfl⟩, hsome⟩
      split at hsome
      · exact absurd hsome (by simp)
      · rename_i hcond
        push_neg at hcond
        obtain ⟨h1, h2, h3⟩ := hcond
        rw [Option.some.injEq, Prod.mk.injEq] at hsome
        obtain ⟨hpr, hpc⟩ := hsome
        have h2' := h2 trivial
        refine ⟨?_, ?_, ?_, ?_, ?_, ?_⟩ <;> omega
    · rintro ⟨hw, hh, hne, hdr, hdc, hman⟩
      refine ⟨(pr + radius - r, pc + radius - c),
        ⟨pr + radius - r, by omega, pc + radius - c, by omega, rfl⟩, ?_⟩
      rw [if_neg (by push_neg; refine ⟨by omega, fun _ => by omega, by omega⟩)]
      rw [Option.some.injEq, Prod.mk.injEq]
      constructor <;> omega

theorem mem_positions_moore1 {w h r c pr pc : Nat} :
    (pr, pc) ∈ neighborhood_positions w h r c true 1 ↔
      pr < w ∧ pc < h ∧ chebyshev r c pr pc = 1 := by
  rw [mem_neighborhood_positions]
  unfold chebyshev
  constructor
  · rintro ⟨hw, hh, hne, hdr, hdc, -⟩
    exact ⟨hw, hh, by omega⟩
  · rintro ⟨hw, hh, hcheb⟩
    exact ⟨hw, hh, by omega, by omega, by omega, by simp⟩

theorem mem_positions_vn4 {w h r c pr pc : Nat} :
    (pr, pc) ∈ neighborhood_positions w h r c false 4 ↔
      pr < w ∧ pc < h ∧ 1 ≤ manhattan r c pr pc ∧ manhattan r c pr pc ≤ 4 := by
  rw [mem_neighborhood_positions]
  unfold manhattan
  constructor
  · rintro ⟨hw, hh, hne, hdr, hdc, hman⟩
    exact ⟨hw, hh, by omega, by simpa [manhattan] using hman rfl⟩
  · rintro ⟨hw, hh, h1, h4⟩
    exact ⟨hw, hh, by omega, by omega, by omega, fun _ => by simpa [manhattan]⟩

theorem chebyshev_le_manhattan {r1 c1 r2 c2 : Nat} :
    chebyshev r1 c1 r2 c2 ≤ manhattan r1 c1 r2 c2 := by
  unfold chebyshev manhattan
  omega

/-! ### Cell lookup -/

theorem cell_at_mem {env : List ColorCell} {p : Nat × Nat} {x : ColorCell}
    (hfind : cell_at env p = some x) : x ∈ env ∧ x.row = p.1 ∧ x.col = p.2 := by
  unfold cell_at at hfind
  have hm := List.mem_of_find?_eq_some hfind
  have hp := List.find?_some hfind
  simp only [Bool.and_eq_true, beq_iff_eq] at hp
  exact ⟨hm, hp.1, hp.2⟩

theorem cell_at_self {env : List ColorCell} {x : ColorCell}
    (huniq : ∀ a ∈ env, ∀ b ∈ env, a.row = b.row → a.col = b.col → a = b)
    (hx : x ∈ env) : cell_at env (x.row, x.col) = some x := by
  unfold cell_at
  have hs : (env.find? fun cell => cell.row == x.row && cell.col == x.col).isSome := by
    rw [List.find?_isSome]
    exact ⟨x, hx, by simp⟩
  obtain ⟨y, hy⟩ := Option.isSome_iff_exists.mp hs
  have hym := List.mem_of_find?_eq_some hy
  have hyp := List.find?_some hy
  simp only [Bool.and_eq_true, beq_iff_eq] at hyp
  rw [hy, huniq y hym x hx hyp.1 hyp.2]

theorem mem_iter_neighbors {w h : Nat} {env : List ColorCell} {r c : Nat}
    {m : Bool} {rad : Nat} {x : ColorCell}
    (hx : x ∈ iter_neighbors w h env r c m rad) :
    x ∈ env ∧ (x.row, x.col) ∈ neighborhood_positions w h r c m rad := by
  unfold iter_neighbors at hx
  rw [List.mem_filterMap] at hx
  obtain ⟨p, hp, hcell⟩ := hx
  obtain ⟨hm, hr, hc⟩ := cell_at_mem hcell
  refine ⟨hm, ?_⟩
  have : (x.row, x.col) = p := by rw [hr, hc]
  rw [this]
  exact hp

theorem mem_iter_neighbors_intro {w h : Nat} {env : List ColorCell} {r c : Nat}
    {m : Bool} {rad : Nat} {x : ColorCell}
    (huniq : ∀ a ∈ env, ∀ b ∈ env, a.row = b.row → a.col = b.col → a = b)
    (hx : x ∈ env)
    (hpos : (x.row, x.col) ∈ neighborhood_positions w h r c m rad) :
    x ∈ iter_neighbors w h env r c m rad := by
  unfold iter_neighbors
  rw [List.mem_filterMap]
  exact ⟨(x.row, x.col), hpos, cell_at_self huniq hx⟩

/-! ### The determine phase reads only the `eraseNext` projection -/

theorem eraseNext_row (c : ColorCell) : (eraseNext c).row = c.row := rfl

theorem eraseNext_col (c : ColorCell) : (eraseNext c).col = c.col := rfl

theorem eraseNext_state (c : ColorCell) : (eraseNext c).state = c.state := rfl

theorem eraseNext_leader (c : ColorCell) :
    (eraseNext c).is_cult_leader = c.is_cult_leader := rfl

theorem cell_at_map_eraseNext (env : List ColorCell) (p : Nat × Nat) :
    cell_at (env.map eraseNext) p = Option.map eraseNext (cell_at env p) := by
  unfold cell_at
  rw [List.find?_map]
  rfl

theorem iter_neighbors_map_eraseNext (w h : Nat) (env : List ColorCell)
    (r c : Nat) (m : Bool) (rad : Nat) :
    iter_neighbors w h (env.map eraseNext) r c m rad =
      (iter_neighbors w h env r c m rad).map eraseNext := by
  unfold iter_neighbors
  rw [List.map_filterMap]
  congr 1
  funext p
  exact cell_at_map_eraseNext env p

theorem leader_scan_map_eraseNext (r c : Nat) (ns : List ColorCell)
    (acc : Option Nat × Nat) :
    leader_scan r c (ns.map eraseNext) acc = leader_scan r c ns acc := by
  induction ns generalizing acc with
  | nil => rfl
  | cons n ns ih =>
    simp only [List.map_cons, leader_scan, eraseNext_leader, eraseNext_state,
      eraseNext_row, eraseNext_col]
    exact ih _

theorem determine_opinion_map_eraseNext (G : Nat → ℚ) (M : Nat → Nat)
    (w h : Nat) (env : List ColorCell) (cell : ColorCell) (gi mi : Nat) :
    determine_opinion G M w h (env.map eraseNext) cell gi mi =
      determine_opinion G M w h env cell gi mi := by
  simp only [determine_opinion]
  rw [iter_neighbors_map_eraseNext, iter_neighbors_map_eraseNext,
    leader_scan_map_eraseNext, List.map_map]
  have : ColorCell.state ∘ eraseNext = ColorCell.state := rfl
  rw [this]

theorem determine_opinion_congr (G : Nat → ℚ) (M : Nat → Nat) (w h : Nat)
    {env1 env2 : List ColorCell} (cell : ColorCell) (gi mi : Nat)
    (henv : env1.map eraseNext = env2.map eraseNext) :
    determine_opinion G M w h env1 cell gi mi =
      determine_opinion G M w h env2 cell gi mi := by
  rw [← determine_opinion_map_eraseNext G M w h env1, henv,
    determine_opinion_map_eraseNext]

/-! ### Sequential pass equals the snapshot pass -/

theorem det_seq_eq_det_map (G : Nat → ℚ) (M : Nat → Nat) (w h : Nat)
    (todo : List ColorCell) : ∀ (env done : List ColorCell) (gi mi : Nat),
    (done ++ todo).map eraseNext = env.map eraseNext →
    det_seq G M w h done todo gi mi =
      Option.map (fun o => (done ++ o.1, o.2)) (det_map G M w h env todo gi mi) := by
  induction todo with
  | nil =>
    intro env done gi mi _
    simp [det_seq, det_map]
  | cons c rest ih =>
    intro env done gi mi henv
    have hc : determine_opinion G M w h (done ++ c :: rest) c gi mi =
        determine_opinion G M w h env c gi mi :=
      determine_opinion_congr G M w h c gi mi henv
    cases hdet : determine_opinion G M w h env c gi mi with
    | none =>
      simp only [det_seq, det_map, hc, hdet]
      rfl
    | some v =>
      obtain ⟨val, gi2, mi2⟩ := v
      simp only [det_seq, det_map, hc, hdet]
      have henv2 : ((done ++ [{ c with next_state := some val }]) ++ rest).map eraseNext =
          env.map eraseNext := by
        rw [← henv]
        simp [eraseNext]
      rw [ih env _ gi2 mi2 henv2]
      cases det_map G M w h env rest gi2 mi2 with
      | none => rfl
      | some o => simp

theorem determine_phase_eq_snapshot (G : Nat → ℚ) (M : Nat → Nat) (w h : Nat)
    (env : List ColorCell) (gi mi : Nat) :
    determine_phase G M w h env gi mi =
      determine_phase_snapshot G M w h env gi mi := by
  unfold determine_phase determine_phase_snapshot
  rw [det_seq_eq_det_map G M w h env env [] gi mi (by simp)]
  cases det_map G M w h env env gi mi with
  | none => rfl
  | some o => simp

theorem det_map_eraseNext (G : Nat → ℚ) (M : Nat → Nat) (w h : Nat)
    (env : List ColorCell) (todo : List ColorCell) :
    ∀ (gi mi : Nat) (out : List ColorCell × Nat × Nat),
    det_map G M w h env todo gi mi = some out →
    out.1.map eraseNext = todo.map eraseNext := by
  induction todo with
  | nil =>
    intro gi mi out hout
    simp only [det_map, Option.some.injEq] at hout
    rw [← hout]
  | cons c rest ih =>
    intro gi mi out hout
    cases hdet : determine_opinion G M w h env c gi mi with
    | none => simp [det_map, hdet] at hout
    | some v =>
      obtain ⟨val, gi2, mi2⟩ := v
      simp only [det_map, hdet] at hout
      cases hrest : det_map G M w h env rest gi2 mi2 with
      | none => rw [hrest] at hout; exact absurd hout (by simp)
      | some o =>
        rw [hrest] at hout
        simp only [Option.some.injEq] at hout
        rw [← hout]
        simp only [List.map_cons]
        rw [ih gi2 mi2 o hrest]
        rfl

theorem determine_phase_eraseNext (G : Nat → ℚ) (M : Nat → Nat) (w h : Nat)
    (env : List ColorCell) (gi mi : Nat) (out : List ColorCell × Nat × Nat)
    (hout : determine_phase G M w h env gi mi = some out) :
    out.1.map eraseNext = env.map eraseNext := by
  rw [determine_phase_eq_snapshot] at hout
  exact det_map_eraseNext G M w h env env gi mi out hout

theorem det_map_next_isSome (G : Nat → ℚ) (M : Nat → Nat) (w h : Nat)
    (env : List ColorCell) (todo : List ColorCell) :
    ∀ (gi mi : Nat) (out : List ColorCell × Nat × Nat),
    det_map G M w h env todo gi mi = some out →
    ∀ x ∈ out.1, x.next_state.isSome = true := by
  induction todo with
  | nil =>
    intro gi mi out hout
    simp only [det_map, Option.some.injEq] at hout
    rw [← hout]
    intro x hx
    exact absurd hx (by simp)
  | cons c rest ih =>
    intro gi mi out hout
    cases hdet : determine_opinion G M w h env c gi mi with
    | none => simp [det_map, hdet] at hout
    | some v =>
      obtain ⟨val, gi2, mi2⟩ := v
      simp only [det_map, hdet] at hout
      cases hrest : det_map G M w h env rest gi2 mi2 with
      | none => rw [hrest] at hout; exact absurd hout (by simp)
      | some o =>
        rw [hrest] at hout
        simp only [Option.some.injEq] at hout
        rw [← hout]
        intro x hx
        rcases List.mem_cons.mp hx with hx | hx
        · rw [hx]
          rfl
        · exact ih gi2 mi2 o hrest x hx

theorem determine_phase_next_isSome (G : Nat → ℚ) (M : Nat → Nat) (w h : Nat)
    (env : List ColorCell) (gi mi : Nat) (out : List ColorCell × Nat × Nat)
    (hout : determine_phase G M w h env gi mi = some out) :
    ∀ x ∈ out.1, x.next_state.isSome = true := by
  rw [determine_phase_eq_snapshot] at hout
  exact det_map_next_isSome G M w h env env gi mi out hout

/-! ### Leader-scan lemmas -/

theorem leader_scan_no_leader {r c : Nat} {ns : List ColorCell}
    (hno : ∀ n ∈ ns, n.is_cult_leader = false) (acc : Option Nat × Nat) :
    leader_scan r c ns acc = acc := by
  induction ns generalizing acc with
  | nil => rfl
  | cons n ns ih =>
    simp only [leader_scan, hno n (by simp)]
    exact ih (fun m hm => hno m (by simp [hm])) acc

theorem leader_scan_fst_cases {r c : Nat} {ns : List ColorCell} {s : Nat}
    (hall : ∀ n ∈ ns, n.is_cult_leader = true → n.state = s) :
    ∀ acc : Option Nat × Nat,
    (leader_scan r c ns acc).1 = acc.1 ∨ (leader_scan r c ns acc).1 = some s := by
  induction ns with
  | nil => intro acc; exact Or.inl rfl
  | cons n ns ih =>
    intro acc
    simp only [leader_scan]
    by_cases hn : n.is_cult_leader = true
    · rw [if_pos hn]
      rcases ih (fun m hm => hall m (List.mem_cons_of_mem _ hm)) (some n.state, _) with h | h
      · right
        rw [h, hall n (by simp) hn]
      · exact Or.inr h
    · rw [if_neg hn]
      exact ih (fun m hm => hall m (List.mem_cons_of_mem _ hm)) acc

theorem leader_scan_fst_some {r c : Nat} {ns : List ColorCell} {s : Nat}
    (hall : ∀ n ∈ ns, n.is_cult_leader = true → n.state = s)
    (hex : ∃ n ∈ ns, n.is_cult_leader = true) (acc : Option Nat × Nat) :
    (leader_scan r c ns acc).1 = some s := by
  induction ns generalizing acc with
  | nil => exact absurd hex (by simp)
  | cons n ns ih =>
    simp only [leader_scan]
    by_cases hn : n.is_cult_leader = true
    · rw [if_pos hn]
      rcases leader_scan_fst_cases (fun m hm => hall m (List.mem_cons_of_mem _ hm))
          (some n.state, min (manhattan r c n.row n.col) acc.2) with h | h
      · rw [h, hall n (by simp) hn]
      · exact h
    · rw [if_neg hn]
      obtain ⟨m, hm, hml⟩ := hex
      rcases List.mem_cons.mp hm with rfl | hm
      · exact absurd hml hn
      · exact ih (fun a ha => hall a (List.mem_cons_of_mem _ ha)) ⟨m, hm, hml⟩ acc

theorem leader_scan_dist_le_acc {r c : Nat} (ns : List ColorCell) :
    ∀ acc : Option Nat × Nat, (leader_scan r c ns acc).2 ≤ acc.2 := by
  induction ns with
  | nil => intro acc; exact Nat.le_refl _
  | cons n ns ih =>
    intro acc
    simp only [leader_scan]
    by_cases hn : n.is_cult_leader = true
    · rw [if_pos hn]
      exact Nat.le_trans (ih _) (by simp [Nat.min_le_right])
    · rw [if_neg hn]
      exact ih acc

theorem leader_scan_dist_le {r c : Nat} {ns : List ColorCell} {n : ColorCell}
    (hn : n ∈ ns) (hl : n.is_cult_leader = true) :
    ∀ acc : Option Nat × Nat,
    (leader_scan r c ns acc).2 ≤ manhattan r c n.row n.col := by
  induction ns with
  | nil => exact absurd hn (by simp)
  | cons m ms ih =>
    intro acc
    simp only [leader_scan]
    rcases List.mem_cons.mp hn with rfl | hmem
    · rw [if_pos hl]
      exact Nat.le_trans (leader_scan_dist_le_acc ms _) (by simp [Nat.min_le_left])
    · by_cases hm : m.is_cult_leader = true
      · rw [if_pos hm]; exact ih hmem _
      · rw [if_neg hm]; exact ih hmem acc

theorem leader_scan_dist_cases {r c : Nat} (ns : List ColorCell) :
    ∀ acc : Option Nat × Nat,
    (leader_scan r c ns acc).2 = acc.2 ∨
      ∃ n ∈ ns, n.is_cult_leader = true ∧
        (leader_scan r c ns acc).2 = manhattan r c n.row n.col := by
  induction ns with
  | nil => intro acc; exact Or.inl rfl
  | cons n ns ih =>
    intro acc
    simp only [leader_scan]
    by_cases hn : n.is_cult_leader = true
    · rw [if_pos hn]
      rcases ih (some n.state, min (manhattan r c n.row n.col) acc.2) with h | ⟨m, hm, hml, hmd⟩
      · rcases Nat.le_total (manhattan r c n.row n.col) acc.2 with hle | hle
        · right
          exact ⟨n, by simp, hn, by rw [h]; simp [Nat.min_eq_left hle]⟩
        · left
          rw [h]
          simp [Nat.min_eq_right hle]
      · exact Or.inr ⟨m, by simp [hm], hml, hmd⟩
    · rw [if_neg hn]
      rcases ih acc with h | ⟨m, hm, hml, hmd⟩
      · exact Or.inl h
      · exact Or.inr ⟨m, by simp [hm], hml, hmd⟩

/-! ### Commit-phase and perturbation lemmas -/

theorem max_opinion_eq : max_opinion = 16 := by decide

theorem initial_opinion_le (k : Nat) : initial_opinion k ≤ 15 := by
  have hlt : k % 16 < 16 := Nat.mod_lt _ (by decide)
  have hall : ∀ j, j < 16 → OPINIONS.getD j 0 ≤ 15 := by decide
  exact hall _ hlt

theorem assume_opinion_leader {c : ColorCell} (hc : c.is_cult_leader = true) :
    assume_opinion c = c := by
  simp [assume_opinion, hc]

theorem assume_opinion_leader_flag (c : ColorCell) :
    (assume_opinion c).is_cult_leader = c.is_cult_leader := by
  unfold assume_opinion
  split <;> rfl

theorem set_leader_at_getElem? (l : List ColorCell) (p : Nat × Nat) (i : Nat) :
    (set_leader_at l p)[i]? = l[i]? ∨
      ∃ c, l[i]? = some c ∧
        (set_leader_at l p)[i]? =
          some { c with state := max_opinion, is_cult_leader := true } := by
  induction l generalizing i with
  | nil => exact Or.inl rfl
  | cons c rest ih =>
    simp only [set_leader_at]
    split
    · cases i with
      | zero => exact Or.inr ⟨c, by simp, by simp⟩
      | succ j => exact Or.inl (by simp)
    · cases i with
      | zero => exact Or.inl (by simp)
      | succ j =>
        simp only [List.getElem?_cons_succ]
        exact ih j

theorem set_leader_at_mem {l : List ColorCell} {p : Nat × Nat} {x : ColorCell}
    (hx : x ∈ set_leader_at l p) :
    x ∈ l ∨ ∃ c ∈ l, x = { c with state := max_opinion, is_cult_leader := true } := by
  induction l with
  | nil => exact absurd hx (by simp [set_leader_at])
  | cons c rest ih =>
    simp only [set_leader_at] at hx
    split at hx
    · rcases List.mem_cons.mp hx with rfl | hx
      · exact Or.inr ⟨c, by simp, rfl⟩
      · exact Or.inl (by simp [hx])
    · rcases List.mem_cons.mp hx with rfl | hx
      · exact Or.inl (by simp)
      · rcases ih hx with h | ⟨d, hd, hxd⟩
        · exact Or.inl (by simp [h])
        · exact Or.inr ⟨d, by simp [hd], hxd⟩

theorem create_cells_fields (M : Nat → Nat) (ps : List (Nat × Nat)) :
    ∀ mi : Nat, ∀ x ∈ (create_cells M ps mi).1,
    x.is_cult_leader = false ∧ x.state ≤ 15 ∧ x.next_state = none := by
  induction ps with
  | nil => intro mi x hx; exact absurd hx (by simp [create_cells])
  | cons p ps ih =>
    intro mi x hx
    simp only [create_cells] at hx
    rcases List.mem_cons.mp hx with rfl | hx
    · exact ⟨rfl, initial_opinion_le _, rfl⟩
    · exact ih (mi + 1) x hx

/-! ### Pointwise consequences of the `eraseNext` equality -/

theorem eraseNext_fields {a b : ColorCell} (h : eraseNext a = eraseNext b) :
    a.row = b.row ∧ a.col = b.col ∧ a.state = b.state ∧
      a.is_cult_leader = b.is_cult_leader := by
  cases a
  cases b
  simp only [eraseNext, ColorCell.mk.injEq] at h
  simp_all

theorem map_eraseNext_getElem? {l1 l2 : List ColorCell}
    (h : l1.map eraseNext = l2.map eraseNext) (i : Nat) :
    (l1[i]?).map eraseNext = (l2[i]?).map eraseNext := by
  rw [← List.getElem?_map, ← List.getElem?_map, h]

theorem map_eraseNext_mem {l1 l2 : List ColorCell}
    (h : l1.map eraseNext = l2.map eraseNext) {x : ColorCell} (hx : x ∈ l1) :
    ∃ y ∈ l2, eraseNext x = eraseNext y := by
  have hmem : eraseNext x ∈ l2.map eraseNext := by
    rw [← h]
    exact List.mem_map_of_mem eraseNext hx
  obtain ⟨y, hy, hxy⟩ := List.mem_map.mp hmem
  exact ⟨y, hy, hxy.symm⟩

/-! ### Tie lists of a unanimous neighborhood -/

theorem dedupFirst_replicate_eight (V : Nat) :
    dedupFirst (List.replicate 8 V) = [V] := by
  show dedupFirst [V, V, V, V, V, V, V, V] = [V]
  simp [dedupFirst]

theorem most_common_replicate_eight (V : Nat) :
    most_common (List.replicate 8 V) = [(V, 8)] := by
  unfold most_common
  rw [dedupFirst_replicate_eight]
  simp [List.count_replicate_self, sortByCountDesc, insertDesc]

theorem tied_of_single (v n : Nat) : tied_of [(v, n)] = [(v, n)] := by
  simp [tied_of]

theorem low_tied_of_single (v n : Nat) : low_tied_of [(v, n)] = [(v, n)] := by
  simp [low_tied_of]

/-! ### Preservation of the leader invariant -/

theorem LeaderInv_of_eraseNext {l1 l2 : List ColorCell}
    (h : l1.map eraseNext = l2.map eraseNext) (hinv : LeaderInv l2) :
    LeaderInv l1 := by
  intro x hx hlx
  obtain ⟨y, hy, hxy⟩ := map_eraseNext_mem h hx
  obtain ⟨-, -, hs, hl⟩ := eraseNext_fields hxy
  rw [hs]
  exact hinv y hy (by rw [← hl]; exact hlx)

theorem LeaderInv_assume_phase {cells : List ColorCell} (hinv : LeaderInv cells) :
    LeaderInv (assume_phase cells) := by
  intro x hx hlx
  obtain ⟨c, hc, rfl⟩ := List.mem_map.mp hx
  have hcl : c.is_cult_leader = true := by
    rw [← assume_opinion_leader_flag]
    exact hlx
  rw [assume_opinion_leader hcl]
  exact hinv c hc hcl

theorem LeaderInv_set_leader_at {cells : List ColorCell} {p : Nat × Nat}
    (hinv : LeaderInv cells) : LeaderInv (set_leader_at cells p) := by
  intro x hx hlx
  rcases set_leader_at_mem hx with hmem | ⟨c, hc, rfl⟩
  · exact hinv x hmem hlx
  · rfl

theorem step_preserves_LeaderInv (G : Nat → ℚ) (M : Nat → Nat)
    (g : ColorPatches) (gi mi : Nat) (out : ColorPatches × Nat × Nat)
    (hinv : LeaderInv g.cells) (hstep : step G M g gi mi = some out) :
    LeaderInv out.1.cells := by
  cases hdp : determine_phase G M g.width g.height g.cells gi mi with
  | none => simp [step, hdp] at hstep
  | some o =>
    obtain ⟨cells1, gi1, mi1⟩ := o
    simp only [step, hdp] at hstep
    have herase := determine_phase_eraseNext G M g.width g.height g.cells gi mi
      (cells1, gi1, mi1) hdp
    have hinv1 : LeaderInv cells1 := LeaderInv_of_eraseNext herase hinv
    have hinv2 : LeaderInv (assume_phase cells1) := LeaderInv_assume_phase hinv1
    by_cases hmod : (g.steps + 1) % 100 = 0
    · rw [if_pos hmod] at hstep
      simp only [manipulate_random_cell] at hstep
      cases hch : stream_choice M mi1 (coord_list g.width g.height) with
      | none => rw [hch] at hstep; exact absurd hstep (by simp)
      | some pm =>
        obtain ⟨p, mi2⟩ := pm
        rw [hch] at hstep
        simp only [Option.some.injEq] at hstep
        rw [← hstep]
        exact LeaderInv_set_leader_at hinv2
    · rw [if_neg hmod] at hstep
      simp only [Option.some.injEq] at hstep
      rw [← hstep]
      exact hinv2

/-! ### Claim theorems -/

/-- C1: during a single `step()`, the determine phase is a pure snapshot pass:
the sequential `self.agents.do("determine_opinion")` pass (each agent reading
the grid as it stands) computes exactly what a pass against the frozen
pre-step grid computes, because `determine_opinion` writes only the visited
cell's `_next_state`; moreover the pass never mutates any cell's committed
opinion, leader flag or position (the `eraseNext` projection of the output
equals that of the input).  The commit phase (`assume_opinion` for all
cells) only runs on the completed output of this phase, by the structure of
`step`. -/
theorem determine_phase_prestep_snapshot (G : Nat → ℚ) (M : Nat → Nat)
    (w h : Nat) (env : List ColorCell) (gi mi : Nat) :
    determine_phase G M w h env gi mi = determine_phase_snapshot G M w h env gi mi ∧
    ∀ out : List ColorCell × Nat × Nat,
      determine_phase G M w h env gi mi = some out →
      out.1.map eraseNext = env.map eraseNext :=
  ⟨determine_phase_eq_snapshot G M w h env gi mi,
   fun out hout => determine_phase_eraseNext G M w h env gi mi out hout⟩

/-- Witness for C1 on a concrete 1×2 grid. -/
theorem determine_phase_prestep_snapshot_witness :
    determine_phase (fun _ => mkRat 1 2) (fun _ => 0) 1 2
        [⟨0, 0, 2, none, false⟩, ⟨0, 1, 4, none, false⟩] 0 0 =
      determine_phase_snapshot (fun _ => mkRat 1 2) (fun _ => 0) 1 2
        [⟨0, 0, 2, none, false⟩, ⟨0, 1, 4, none, false⟩] 0 0 ∧
    ([⟨0, 0, 2, some 4, false⟩, ⟨0, 1, 4, some 2, false⟩] : List ColorCell).map
        eraseNext =
      ([⟨0, 0, 2, none, false⟩, ⟨0, 1, 4, none, false⟩] : List ColorCell).map
        eraseNext :=
  ⟨(determine_phase_prestep_snapshot (fun _ => mkRat 1 2) (fun _ => 0) 1 2
      [⟨0, 0, 2, none, false⟩, ⟨0, 1, 4, none, false⟩] 0 0).1,
   (determine_phase_prestep_snapshot (fun _ => mkRat 1 2) (fun _ => 0) 1 2
      [⟨0, 0, 2, none, false⟩, ⟨0, 1, 4, none, false⟩] 0 0).2
     ([⟨0, 0, 2, some 4, false⟩, ⟨0, 1, 4, some 2, false⟩], 2, 2) (by decide)⟩

/-- C4 is false of the code: the probability draws of `determine_opinion` come
from the module-global `random.random()`, which a fixed model seed does not
control (the model's own generator is used only for the `choice` calls).
Two runs from the same 2×2 grid with identical model streams but different
global streams commit different opinions after one `step()`. -/
theorem step_depends_on_global_stream :
    Option.map (fun o => o.1.cells.map ColorCell.state)
        (step (fun _ => 0) (fun _ => 0)
          ⟨2, 2, [⟨0, 0, 1, none, false⟩, ⟨0, 1, 3, none, false⟩,
            ⟨1, 0, 3, none, false⟩, ⟨1, 1, 5, none, false⟩], 0⟩ 0 0) ≠
      Option.map (fun o => o.1.cells.map ColorCell.state)
        (step (fun _ => mkRat 1 2) (fun _ => 0)
          ⟨2, 2, [⟨0, 0, 1, none, false⟩, ⟨0, 1, 3, none, false⟩,
            ⟨1, 0, 3, none, false⟩, ⟨1, 1, 5, none, false⟩], 0⟩ 0 0) := by
  decide

/-- C6 counterexample: the determine phase does not skip cult leaders.  On a
2×1 grid whose first cell is a cult leader, `determine_opinion` runs for
that leader, computes a pending opinion for it (here `5`, its neighbor's
opinion) and consumes one global and one model draw (the indices advance
from 0 to 1). -/
theorem determine_not_skipped_for_leader :
    (⟨0, 0, 16, none, true⟩ : ColorCell).is_cult_leader = true ∧
    determine_opinion (fun _ => mkRat 1 2) (fun _ => 0) 2 1
        [⟨0, 0, 16, none, true⟩, ⟨1, 0, 5, none, false⟩]
        ⟨0, 0, 16, none, true⟩ 0 0 =
      some (5, 1, 1) := by
  exact ⟨rfl, by decide⟩

/-- C6 (amended): the determine phase visits every cell, cult leaders
included: after a completed phase every output cell carries a pending
opinion (so leaders also consume random draws), and leader opinions are
protected only at commit time, where `assume_opinion` leaves a leader
untouched. -/
theorem determine_phase_all_cells_amended (G : Nat → ℚ) (M : Nat → Nat)
    (w h : Nat) (env : List ColorCell) (gi mi : Nat)
    (out : List ColorCell × Nat × Nat)
    (hout : determine_phase G M w h env gi mi = some out) :
    (∀ x ∈ out.1, x.next_state.isSome = true) ∧
    (∀ c : ColorCell, c.is_cult_leader = true → assume_opinion c = c) :=
  ⟨determine_phase_next_isSome G M w h env gi mi out hout,
   fun _ hc => assume_opinion_leader hc⟩

/-- Witness for the amended C6 on a concrete 1×2 grid. -/
theorem determine_phase_all_cells_amended_witness :
    (∀ x ∈ ([⟨0, 0, 9, some 2, false⟩, ⟨0, 1, 2, some 9, false⟩] :
        List ColorCell), x.next_state.isSome = true) ∧
    (∀ c : ColorCell, c.is_cult_leader = true → assume_opinion c = c) :=
  determine_phase_all_cells_amended (fun _ => mkRat 1 2) (fun _ => 0) 1 2
    [⟨0, 0, 9, none, false⟩, ⟨0, 1, 2, none, false⟩] 0 0
    ([⟨0, 0, 9, some 2, false⟩, ⟨0, 1, 2, some 9, false⟩], 2, 2) (by decide)

/-- C8 counterexample: the initial draw is
`OPINIONS[self.random.randrange(0, 16)]`, whose index never reaches 16, so
the extreme opinion 16 = `OPINIONS[-1]` is not a possible initial opinion,
contradicting the claim that all of 0..16 are. -/
theorem initial_opinion_never_max : ¬ ∃ k : Nat, initial_opinion k = 16 := by
  rintro ⟨k, hk⟩
  have hlt : k % 16 < 16 := Nat.mod_lt _ (by decide)
  have hall : ∀ j, j < 16 → OPINIONS.getD j 0 ≠ 16 := by decide
  exact hall _ hlt hk

/-- C8 (amended): at initialization every cell is created with
`isCultLeader = false`, no pending opinion, and an opinion drawn uniformly
from the first sixteen entries `OPINIONS[0..15] = 0..15` (the index `j`
yields opinion `j`, so all sixteen values are equally likely and 16 is
unreachable). -/
theorem initial_cells_amended :
    (∀ (M : Nat → Nat) (ps : List (Nat × Nat)) (mi : Nat),
      ∀ x ∈ (create_cells M ps mi).1,
        x.is_cult_leader = false ∧ x.state ≤ 15 ∧ x.next_state = none) ∧
    (∀ j, j < 16 → initial_opinion j = j) :=
  ⟨fun M ps mi => create_cells_fields M ps mi, by decide⟩

/-- Witness for the amended C8 on a single created cell. -/
theorem initial_cells_amended_witness :
    ((⟨0, 0, 0, none, false⟩ : ColorCell).is_cult_leader = false ∧
      (⟨0, 0, 0, none, false⟩ : ColorCell).state ≤ 15 ∧
      (⟨0, 0, 0, none, false⟩ : ColorCell).next_state = none) ∧
    initial_opinion 3 = 3 :=
  ⟨initial_cells_amended.1 (fun _ => 0) [(0, 0)] 0 ⟨0, 0, 0, none, false⟩
      (by decide),
   initial_cells_amended.2 3 (by decide)⟩

/-- C9: the empty-neighborhood case is not guarded by the code.  On the
degenerate 1×1 grid the lone cell has no neighbors, both tie lists are
empty, and `random.choice([])` raises `IndexError` instead of falling back
to the current opinion: the embedded `determine_opinion` returns `none`,
and so does the constructor (which runs one `step()`). -/
theorem empty_neighborhood_raises :
    determine_opinion (fun _ => 0) (fun _ => 0) 1 1 [⟨0, 0, 7, none, false⟩]
        ⟨0, 0, 7, none, false⟩ 0 0 = none ∧
    colorPatches_init (fun _ => 0) (fun _ => 0) 1 1 0 0 = none := by
  constructor <;> decide

/-- The leader-influence threshold written in the code's form `0.9 - dist*0.2`
equals the `mkRat` form used in `determine_opinion`. -/
theorem threshold_eq (d : Nat) :
    (mkRat (9 - 2 * (d : Int)) 10 : ℚ) = 9 / 10 - (d : ℚ) * (1 / 5) := by
  rw [Rat.mkRat_eq_div]
  push_cast
  ring

/-- C3: on a well-formed grid, the list whose opinions are tallied into the
frequency count behind `tied_opinions` and `low_tied_opinions` — namely
`iter_neighbors(pos, moore=True)` with its default radius 1 and no center —
contains exactly the grid cells at Chebyshev distance 1 from the cell (the
up-to-8 immediate Moore neighbors) and never the cell itself. -/
theorem moore_tally_exact (w h : Nat) (env : List ColorCell)
    (cell : ColorCell) (hwf : WFGrid w h env) :
    (∀ x, x ∈ iter_neighbors w h env cell.row cell.col true 1 ↔
      (x ∈ env ∧ chebyshev cell.row cell.col x.row x.col = 1)) ∧
    cell ∉ iter_neighbors w h env cell.row cell.col true 1 := by
  obtain ⟨hbounds, huniq⟩ := hwf
  constructor
  · intro x
    constructor
    · intro hx
      obtain ⟨hxe, hpos⟩ := mem_iter_neighbors hx
      rw [mem_positions_moore1] at hpos
      exact ⟨hxe, hpos.2.2⟩
    · rintro ⟨hxe, hcheb⟩
      refine mem_iter_neighbors_intro huniq hxe ?_
      rw [mem_positions_moore1]
      exact ⟨(hbounds x hxe).1, (hbounds x hxe).2, hcheb⟩
  · intro hx
    obtain ⟨-, hpos⟩ := mem_iter_neighbors hx
    rw [mem_positions_moore1] at hpos
    have hzero : chebyshev cell.row cell.col cell.row cell.col = 0 := by
      unfold chebyshev
      omega
    have hone := hpos.2.2
    rw [hzero] at hone
    exact absurd hone (by decide)

/-- Witness for C3 on a concrete 2×2 grid. -/
theorem moore_tally_exact_witness :
    WFGrid 2 2 [⟨0, 0, 1, none, false⟩, ⟨0, 1, 2, none, false⟩,
      ⟨1, 0, 3, none, false⟩, ⟨1, 1, 4, none, false⟩] ∧
    (⟨0, 0, 1, none, false⟩ : ColorCell) ∉
      iter_neighbors 2 2 [⟨0, 0, 1, none, false⟩, ⟨0, 1, 2, none, false⟩,
        ⟨1, 0, 3, none, false⟩, ⟨1, 1, 4, none, false⟩] 0 0 true 1 :=
  ⟨by decide,
   (moore_tally_exact 2 2 [⟨0, 0, 1, none, false⟩, ⟨0, 1, 2, none, false⟩,
      ⟨1, 0, 3, none, false⟩, ⟨1, 1, 4, none, false⟩] ⟨0, 0, 1, none, false⟩
      (by decide)).2⟩

/-- C7: a non-leader cell whose 8 Moore neighbors unanimously hold opinion `V`
and which has no cult leader within radius 4 gets pending opinion `V` in
every execution in which the 10% low-tie draw does not fire (so with
probability at least 0.9: both tie sets are `{V}`, so in fact either branch
yields `V`). -/
theorem unanimous_majority (G : Nat → ℚ) (M : Nat → Nat) (w h : Nat)
    (env : List ColorCell) (cell : ColorCell) (gi mi : Nat) (V : Nat)
    (hnl : cell.is_cult_leader = false)
    (hnbrs : (iter_neighbors w h env cell.row cell.col true 1).map
      ColorCell.state = List.replicate 8 V)
    (hnold : ∀ l ∈ env, l.is_cult_leader = true →
      4 < chebyshev cell.row cell.col l.row l.col)
    (hno : ¬ G gi < mkRat 1 10) :
    determine_opinion G M w h env cell gi mi = some (V, gi + 1, mi + 1) := by
  have hnolead : ∀ n ∈ iter_neighbors w h env cell.row cell.col false 4,
      n.is_cult_leader = false := by
    intro n hn
    obtain ⟨hne, hpos⟩ := mem_iter_neighbors hn
    rw [mem_positions_vn4] at hpos
    by_cases hl : n.is_cult_leader = true
    · exfalso
      have h4 := hnold n hne hl
      have hle : chebyshev cell.row cell.col n.row n.col ≤
          manhattan cell.row cell.col n.row n.col := chebyshev_le_manhattan
      have hm4 := hpos.2.2.2
      omega
    · simpa using hl
  have hscan : leader_scan cell.row cell.col
      (iter_neighbors w h env cell.row cell.col false 4) (none, 10000) =
      (none, 10000) :=
    leader_scan_no_leader hnolead _
  simp only [determine_opinion, hscan, hnbrs, most_common_replicate_eight,
    tied_of_single, low_tied_of_single]
  unfold det_tail
  rw [if_neg hno]
  simp [stream_choice, Nat.mod_one]

/-- Witness for C7: the center of an all-7 3×3 grid. -/
theorem unanimous_majority_witness :
    ((iter_neighbors 3 3 [⟨0, 0, 7, none, false⟩, ⟨0, 1, 7, none, false⟩,
        ⟨0, 2, 7, none, false⟩, ⟨1, 0, 7, none, false⟩, ⟨1, 1, 7, none, false⟩,
        ⟨1, 2, 7, none, false⟩, ⟨2, 0, 7, none, false⟩, ⟨2, 1, 7, none, false⟩,
        ⟨2, 2, 7, none, false⟩] 1 1 true 1).map ColorCell.state =
      List.replicate 8 7) ∧
    determine_opinion (fun _ => mkRat 1 2) (fun _ => 0) 3 3
      [⟨0, 0, 7, none, false⟩, ⟨0, 1, 7, none, false⟩, ⟨0, 2, 7, none, false⟩,
        ⟨1, 0, 7, none, false⟩, ⟨1, 1, 7, none, false⟩, ⟨1, 2, 7, none, false⟩,
        ⟨2, 0, 7, none, false⟩, ⟨2, 1, 7, none, false⟩, ⟨2, 2, 7, none, false⟩]
      ⟨1, 1, 7, none, false⟩ 0 0 = some (7, 1, 1) :=
  ⟨by decide,
   unanimous_majority (fun _ => mkRat 1 2) (fun _ => 0) 3 3
     [⟨0, 0, 7, none, false⟩, ⟨0, 1, 7, none, false⟩, ⟨0, 2, 7, none, false⟩,
       ⟨1, 0, 7, none, false⟩, ⟨1, 1, 7, none, false⟩, ⟨1, 2, 7, none, false⟩,
       ⟨2, 0, 7, none, false⟩, ⟨2, 1, 7, none, false⟩, ⟨2, 2, 7, none, false⟩]
     ⟨1, 1, 7, none, false⟩ 0 0 7 (by decide) (by decide) (by decide)
     (by decide)⟩

/-- C2: under the leader-opinion invariant (which holds in every reachable
state, see `leader_opinion_invariant`), every cell that is a cult leader
before a `step()` is still a cult leader with the same opinion afterwards —
also on steps where the perturbation fires and possibly re-selects that very
cell, since designation rewrites exactly the opinion `OPINIONS[-1]` the
leader already holds. -/
theorem leaders_unchanged_by_step (G : Nat → ℚ) (M : Nat → Nat)
    (g : ColorPatches) (gi mi : Nat) (out : ColorPatches × Nat × Nat)
    (hinv : LeaderInv g.cells) (hstep : step G M g gi mi = some out) :
    ∀ (i : Nat) (c : ColorCell), g.cells[i]? = some c →
      c.is_cult_leader = true →
      ∃ c2 : ColorCell, out.1.cells[i]? = some c2 ∧
        c2.is_cult_leader = true ∧ c2.state = c.state := by
  intro i c hci hcl
  have hmem : c ∈ g.cells := by
    obtain ⟨hlt, rfl⟩ := List.getElem?_eq_some.mp hci
    exact List.getElem_mem hlt
  have hstate : c.state = max_opinion := hinv c hmem hcl
  cases hdp : determine_phase G M g.width g.height g.cells gi mi with
  | none => simp [step, hdp] at hstep
  | some o =>
    obtain ⟨cells1, gi1, mi1⟩ := o
    simp only [step, hdp] at hstep
    have herase := determine_phase_eraseNext G M g.width g.height g.cells gi mi
      (cells1, gi1, mi1) hdp
    have hpt := map_eraseNext_getElem? herase i
    rw [hci] at hpt
    cases hc1 : cells1[i]? with
    | none => rw [hc1] at hpt; exact absurd hpt (by simp)
    | some c1 =>
      rw [hc1] at hpt
      simp only [Option.map_some', Option.some.injEq] at hpt
      obtain ⟨-, -, hs1, hl1⟩ := eraseNext_fields hpt
      have hc1l : c1.is_cult_leader = true := by rw [hl1]; exact hcl
      have hassume : (assume_phase cells1)[i]? = some c1 := by
        unfold assume_phase
        rw [List.getElem?_map, hc1]
        simp [assume_opinion_leader hc1l]
      by_cases hmod : (g.steps + 1) % 100 = 0
      · rw [if_pos hmod] at hstep
        simp only [manipulate_random_cell] at hstep
        cases hch : stream_choice M mi1 (coord_list g.width g.height) with
        | none => rw [hch] at hstep; exact absurd hstep (by simp)
        | some pm =>
          obtain ⟨p, mi2⟩ := pm
          rw [hch] at hstep
          simp only [Option.some.injEq] at hstep
          rw [← hstep]
          rcases set_leader_at_getElem? (assume_phase cells1) p i with hsl |
            ⟨d, hd, hsl⟩
          · refine ⟨c1, ?_, hc1l, hs1⟩
            show (set_leader_at (assume_phase cells1) p)[i]? = some c1
            rw [hsl]
            exact hassume
          · have hdc : d = c1 := by
              rw [hassume] at hd
              exact (Option.some.inj hd).symm
            refine ⟨{ d with state := max_opinion, is_cult_leader := true },
              ?_, rfl, ?_⟩
            · show (set_leader_at (assume_phase cells1) p)[i]? = _
              exact hsl
            · show max_opinion = c.state
              exact hstate.symm
      · rw [if_neg hmod] at hstep
        simp only [Option.some.injEq] at hstep
        rw [← hstep]
        exact ⟨c1, hassume, hc1l, hs1⟩

/-- Witness for C2 on a 2×1 grid whose first cell is a leader. -/
theorem leaders_unchanged_by_step_witness :
    LeaderInv [⟨0, 0, 16, none, true⟩, ⟨1, 0, 7, none, false⟩] ∧
    (∃ c2 : ColorCell,
      ([⟨0, 0, 16, some 7, true⟩, ⟨1, 0, 16, some 16, false⟩] :
        List ColorCell)[0]? = some c2 ∧
        c2.is_cult_leader = true ∧ c2.state = 16) :=
  ⟨by decide,
   leaders_unchanged_by_step (fun _ => 0) (fun _ => 0)
     ⟨2, 1, [⟨0, 0, 16, none, true⟩, ⟨1, 0, 7, none, false⟩], 0⟩ 0 0
     (⟨2, 1, [⟨0, 0, 16, some 7, true⟩, ⟨1, 0, 16, some 16, false⟩], 1⟩, 2, 1)
     (by decide) (by decide) 0 ⟨0, 0, 16, none, true⟩ (by decide) (by decide)⟩

/-- C10: every cult leader always holds the extreme opinion
`16 = OPINIONS[-1]`: construction (which creates only non-leaders and then
runs one step) establishes the invariant, and every `step()` preserves it
(the determine phase writes no committed opinions, the commit phase skips
leaders, and designation writes exactly opinion `OPINIONS[-1]` together with
the flag).  Consequently the truthiness test guarding the leader-influence
branch compares against the value 16, never against a leader opinion 0. -/
theorem leader_opinion_invariant :
    (∀ (G : Nat → ℚ) (M : Nat → Nat) (w h gi mi : Nat)
      (out : ColorPatches × Nat × Nat),
      colorPatches_init G M w h gi mi = some out → LeaderInv out.1.cells) ∧
    (∀ (G : Nat → ℚ) (M : Nat → Nat) (g : ColorPatches) (gi mi : Nat)
      (out : ColorPatches × Nat × Nat),
      LeaderInv g.cells → step G M g gi mi = some out →
        LeaderInv out.1.cells) ∧
    max_opinion = 16 := by
  refine ⟨?_, ?_, by decide⟩
  · intro G M w h gi mi out hinit
    unfold colorPatches_init at hinit
    refine step_preserves_LeaderInv G M _ gi _ out ?_ hinit
    intro x hx hlx
    have hflag := (create_cells_fields M (coord_list w h) mi x hx).1
    rw [hflag] at hlx
    exact absurd hlx (by decide)
  · exact fun G M g gi mi out hinv hstep =>
      step_preserves_LeaderInv G M g gi mi out hinv hstep

/-- Witness for C10: one step on a 2×1 grid containing a leader. -/
theorem leader_opinion_invariant_witness :
    LeaderInv [⟨0, 0, 16, none, true⟩, ⟨1, 0, 9, none, false⟩] ∧
    LeaderInv [⟨0, 0, 16, some 9, true⟩, ⟨1, 0, 16, some 16, false⟩] :=
  ⟨by decide,
   leader_opinion_invariant.2.1 (fun _ => 0) (fun _ => 0)
     ⟨2, 1, [⟨0, 0, 16, none, true⟩, ⟨1, 0, 9, none, false⟩], 0⟩ 0 0
     (⟨2, 1, [⟨0, 0, 16, some 9, true⟩, ⟨1, 0, 16, some 16, false⟩], 1⟩, 2, 1)
     (by decide) (by decide)⟩

/-- C5: on a well-formed grid satisfying the leader-opinion invariant (true
in every reachable state), consider a non-leader cell with at least one cult
leader within Chebyshev radius 4 and let `d` be the minimum Manhattan
distance to any such leader.  If the global draw is nonnegative and below
`max 0 (0.9 - d*0.2)` (the threshold is written `max 0 (mkRat (9 - 2*d) 10)`,
see `threshold_eq`), then `determine_opinion` takes the leader branch: it
returns the opinion of a leader at that minimum distance, consuming exactly
one global draw and no model draw.  (The code scans the von-Neumann radius-4
neighborhood, but a positive threshold forces `d ≤ 4`, and a leader at
Manhattan distance `d ≤ 4` lies in both regions, so the two scan regions
yield the same minimum.) -/
theorem leader_influence_override (G : Nat → ℚ) (M : Nat → Nat) (w h : Nat)
    (env : List ColorCell) (cell : ColorCell) (gi mi : Nat) (d : Nat)
    (hwf : WFGrid w h env) (hinv : LeaderInv env) (hcell : cell ∈ env)
    (hnl : cell.is_cult_leader = false)
    (hex : ∃ l ∈ env, l.is_cult_leader = true ∧
      chebyshev cell.row cell.col l.row l.col ≤ 4 ∧
      manhattan cell.row cell.col l.row l.col = d)
    (hmin : ∀ l ∈ env, l.is_cult_leader = true →
      chebyshev cell.row cell.col l.row l.col ≤ 4 →
      d ≤ manhattan cell.row cell.col l.row l.col)
    (h0 : 0 ≤ G gi) (hlt : G gi < max 0 (mkRat (9 - 2 * (d : Int)) 10)) :
    ∃ l ∈ env, l.is_cult_leader = true ∧
      manhattan cell.row cell.col l.row l.col = d ∧
      determine_opinion G M w h env cell gi mi = some (l.state, gi + 1, mi) := by
  obtain ⟨hbounds, huniq⟩ := hwf
  obtain ⟨l0, hl0e, hl0l, hl0c, hl0d⟩ := hex
  have hθpos : (0 : ℚ) < mkRat (9 - 2 * (d : Int)) 10 := by
    by_contra hnp
    push_neg at hnp
    rw [max_eq_left hnp] at hlt
    exact absurd (lt_of_le_of_lt h0 hlt) (lt_irrefl _)
  have hd4 : d ≤ 4 := by
    by_contra hd5
    push_neg at hd5
    rw [threshold_eq] at hθpos
    have hcast : (5 : ℚ) ≤ (d : ℚ) := by exact_mod_cast hd5
    linarith
  rw [max_eq_right (le_of_lt hθpos)] at hlt
  have hl0pos : 1 ≤ manhattan cell.row cell.col l0.row l0.col := by
    by_contra hz
    push_neg at hz
    have heq : l0.row = cell.row ∧ l0.col = cell.col := by
      unfold manhattan at hz
      constructor <;> omega
    have hlc : l0 = cell := huniq l0 hl0e cell hcell heq.1 heq.2
    rw [hlc, hnl] at hl0l
    exact absurd hl0l (by decide)
  have hl0scan : l0 ∈ iter_neighbors w h env cell.row cell.col false 4 := by
    refine mem_iter_neighbors_intro huniq hl0e ?_
    rw [mem_positions_vn4]
    refine ⟨(hbounds l0 hl0e).1, (hbounds l0 hl0e).2, hl0pos, ?_⟩
    rw [hl0d]
    exact hd4
  have hall : ∀ n ∈ iter_neighbors w h env cell.row cell.col false 4,
      n.is_cult_leader = true → n.state = max_opinion := fun n hn hn2 =>
    hinv n (mem_iter_neighbors hn).1 hn2
  have hfst : (leader_scan cell.row cell.col
      (iter_neighbors w h env cell.row cell.col false 4) (none, 10000)).1 =
      some max_opinion :=
    leader_scan_fst_some hall ⟨l0, hl0scan, hl0l⟩ _
  have hle1 : (leader_scan cell.row cell.col
      (iter_neighbors w h env cell.row cell.col false 4) (none, 10000)).2 ≤
      manhattan cell.row cell.col l0.row l0.col :=
    leader_scan_dist_le hl0scan hl0l _
  rw [hl0d] at hle1
  have hged : d ≤ (leader_scan cell.row cell.col
      (iter_neighbors w h env cell.row cell.col false 4) (none, 10000)).2 := by
    rcases leader_scan_dist_cases
        (iter_neighbors w h env cell.row cell.col false 4)
        ((none, 10000) : Option Nat × Nat) with hc10 | ⟨n, hn, hnlead, hnd⟩
    · have h1e4 : (leader_scan cell.row cell.col
          (iter_neighbors w h env cell.row cell.col false 4) (none, 10000)).2 =
          10000 := hc10
      omega
    · rw [hnd]
      obtain ⟨hne2, hpos2⟩ := mem_iter_neighbors hn
      rw [mem_positions_vn4] at hpos2
      refine hmin n hne2 hnlead ?_
      have hcm : chebyshev cell.row cell.col n.row n.col ≤
          manhattan cell.row cell.col n.row n.col := chebyshev_le_manhattan
      omega
  have hsD : (leader_scan cell.row cell.col
      (iter_neighbors w h env cell.row cell.col false 4) (none, 10000)).2 = d := by
    omega
  have hscan : leader_scan cell.row cell.col
      (iter_neighbors w h env cell.row cell.col false 4) (none, 10000) =
      (some max_opinion, d) :=
    Prod.ext hfst hsD
  refine ⟨l0, hl0e, hl0l, hl0d, ?_⟩
  simp only [determine_opinion, hscan]
  rw [if_pos ⟨by decide, hlt⟩]
  rw [hinv l0 hl0e hl0l]

/-- Witness for C5: a 2×1 grid with a leader at Manhattan distance 1. -/
theorem leader_influence_override_witness :
    (WFGrid 2 1 [⟨0, 0, 9, none, false⟩, ⟨1, 0, 16, none, true⟩] ∧
      LeaderInv [⟨0, 0, 9, none, false⟩, ⟨1, 0, 16, none, true⟩] ∧
      (0 : ℚ) ≤ 0 ∧ (0 : ℚ) < max 0 (mkRat (9 - 2 * ((1 : Nat) : Int)) 10)) ∧
    (∃ l ∈ [(⟨0, 0, 9, none, false⟩ : ColorCell), ⟨1, 0, 16, none, true⟩],
      l.is_cult_leader = true ∧
      manhattan 0 0 l.row l.col = 1 ∧
      determine_opinion (fun _ => 0) (fun _ => 0) 2 1
        [⟨0, 0, 9, none, false⟩, ⟨1, 0, 16, none, true⟩]
        ⟨0, 0, 9, none, false⟩ 0 0 = some (l.state, 1, 0)) :=
  ⟨⟨by decide, by decide, by decide, by decide⟩,
   leader_influence_override (fun _ => 0) (fun _ => 0) 2 1
     [⟨0, 0, 9, none, false⟩, ⟨1, 0, 16, none, true⟩] ⟨0, 0, 9, none, false⟩
     0 0 1 (by decide) (by decide) (by decide) (by decide) (by decide)
     (by decide) (by decide) (by decide)⟩
